import Mathlib

/-!
Verification of the decoder-plugin registry and dispatch layer of VGMPD
(`src/decoder/DecoderList.cxx`) and of the helper arithmetic in the format
plugins (`LazygsfDecoderPlugin.cxx`, `LazyusfDecoderPlugin.cxx`,
`UpseDecoderPlugin.cxx`, `AopsfDecoderPlugin.cxx`).

The C++ code is shallowly embedded as executable Lean definitions:

* the static plugin array `decoder_plugins[]` becomes an explicit list of
  `DecoderPlugin` values, and plugin pointers become indices into that list;
* the parallel array `decoder_plugins_enabled[]` becomes a `List Bool`;
* the `std::unordered_map` `decoder_codec_priorities` becomes an association
  list (only `find`/`operator[]` are ever used on it, so an association list
  with first-match lookup is an exact model);
* C++ exceptions thrown by `DecoderPlugin::Init` become an explicit
  `InitResult` outcome, and the `try`/`catch` classification in
  `decoder_plugin_init_all` becomes a `match`;
* `uint64_t` arithmetic carries an explicit `% 2^64`, `int64_t`
  multiplication an explicit two's-complement wrap, and C integer division
  is `Int.tdiv` (truncation toward zero).
-/

namespace VGMPD

/-- ASCII lower-casing, from `util/CharUtil.hxx` `ToLowerASCII`:
`('A' <= ch && ch <= 'Z') ? (ch + 0x20) : ch`. -/
def ToLowerASCII (c : Char) : Char :=
  if 'A' ≤ c ∧ c ≤ 'Z' then Char.ofNat (c.toNat + 0x20) else c

/-- Modelled from the spec: `IsWhitespaceFast` lives in `util/CharUtil.hxx`,
which is not under `src/`; per §4.2 commas "and/or whitespace" delimit codec
tokens, so this accepts the ASCII whitespace characters. -/
def IsWhitespaceFast (c : Char) : Bool :=
  c = ' ' || c = '\t' || c = '\n' || c = '\x0b' || c = '\x0c' || c = '\r'

/-- A character that ends a codec token in `ParseCodecList`
(`s[i] == ',' || IsWhitespaceFast(s[i])`). -/
def IsCodecDelim (c : Char) : Bool :=
  c = ',' || IsWhitespaceFast c

/-- The scanning loop of `ParseCodecList` (DecoderList.cxx:56-92): skip runs
of delimiters, then copy the maximal delimiter-free run as one lower-cased
token.  The C `while` loop over indices is embedded with a fuel argument that
starts at the string length; each step consumes at least one character, so
the fuel never runs out. -/
def ParseCodecListAux : Nat → List Char → List String
  | 0, _ => []
  | _, [] => []
  | fuel + 1, c :: rest =>
    if IsCodecDelim c then
      ParseCodecListAux fuel rest
    else
      String.mk ((c :: rest.takeWhile (fun ch => !(IsCodecDelim ch))).map ToLowerASCII)
        :: ParseCodecListAux fuel (rest.dropWhile (fun ch => !(IsCodecDelim ch)))

/-- `ParseCodecList` (DecoderList.cxx:56-92).  A `nullptr` argument (absent
`codecs` option) is `none` and yields the empty list. -/
def ParseCodecList : Option String → List String
  | none => []
  | some value => ParseCodecListAux value.data.length value.data

/-- One compiled-in decoder plugin (`struct DecoderPlugin`).  The claims under
verification only depend on the plugin's configuration-lookup name; the static
registry `decoder_plugins[]` is a list of these, and a C++ plugin pointer is
embedded as an index into that list. -/
structure DecoderPlugin where
  name : String
deriving DecidableEq

/-- One decoder configuration block (`config/Block.hxx` is not under `src/`;
modelled from the spec, §6): optional `plugin` name, optional `enabled` flag
(absent means the default `true`), optional `codecs` list. -/
structure ConfigBlock where
  plugin : Option String
  enabled : Option Bool
  codecs : Option String
deriving DecidableEq

instance : Inhabited ConfigBlock := ⟨⟨none, none, none⟩⟩

/-- Modelled from the spec: `decoder_plugins_find` is declared in
`DecoderList.hxx`, which is not under `src/`.  It scans the static plugin
array in order and returns the first *enabled* plugin satisfying the
predicate — the enabled filter is dictated by the §3 table invariant
("resolved successfully by name among enabled plugins") and by the warning
text in `BuildDecoderCodecPriorities` ("plugin not enabled"). -/
def decoder_plugins_find (ps : List DecoderPlugin) (en : List Bool)
    (f : DecoderPlugin → Bool) : Option Nat :=
  (List.range ps.length).find? (fun i =>
    en.getD i false &&
      (match ps.get? i with
       | some p => f p
       | none => false))

/-- `decoder_plugin_from_name` (DecoderList.cxx:219-225): find by exact
name among enabled plugins. -/
def decoder_plugin_from_name (ps : List DecoderPlugin) (en : List Bool)
    (name : String) : Option Nat :=
  decoder_plugins_find ps en (fun p => p.name == name)

/-- Lookup in the codec priority table (`decoder_codec_priorities.find(key)`),
embedded as first-match association-list lookup. -/
def lookupPrio : List (String × List Nat) → String → Option (List Nat)
  | [], _ => none
  | (k, l) :: rest, c => if k = c then some l else lookupPrio rest c

/-- One insertion into the codec priority table
(DecoderList.cxx:116-120): `decoder_codec_priorities[codec]` creates the
entry if absent, then the plugin is appended unless already present. -/
def prioInsert : List (String × List Nat) → String → Nat → List (String × List Nat)
  | [], c, j => [(c, [j])]
  | (k, l) :: rest, c, j =>
    if k = c then (k, if j ∈ l then l else l ++ [j]) :: rest
    else (k, l) :: prioInsert rest c j

/-- The body of the `config.WithEach(ConfigBlockOption::DECODER, ...)` lambda
of `BuildDecoderCodecPriorities` (DecoderList.cxx:99-121), processing one
decoder configuration block: skip blocks without a `plugin` value; skip (with
a warning) blocks whose plugin name does not resolve among enabled plugins;
skip blocks whose parsed codec list is empty; otherwise insert the plugin for
each parsed codec token. -/
def buildStep (ps : List DecoderPlugin) (en : List Bool)
    (table : List (String × List Nat)) (block : ConfigBlock) :
    List (String × List Nat) :=
  match block.plugin with
  | none => table
  | some pname =>
    match decoder_plugin_from_name ps en pname with
    | none => table
    | some idx =>
      if (ParseCodecList block.codecs).isEmpty then table
      else (ParseCodecList block.codecs).foldl (fun t c => prioInsert t c idx) table

/-- Specification helper describing the effect of `prioInsert` on the entry
it targets: create `[j]` when the codec had no entry, otherwise append `j`
unless already present. -/
def prioBump (old : Option (List Nat)) (j : Nat) : List Nat :=
  match old with
  | some l => if j ∈ l then l else l ++ [j]
  | none => [j]

/-- `BuildDecoderCodecPriorities` (DecoderList.cxx:94-122): clear the table,
then process each decoder configuration block in file order. -/
def BuildDecoderCodecPriorities (ps : List DecoderPlugin) (en : List Bool)
    (config : List ConfigBlock) : List (String × List Nat) :=
  config.foldl (buildStep ps en) []

/-- Modelled from the spec: `GetEnabledDecoderPlugins` is declared in
`DecoderList.hxx`, which is not under `src/`.  Per §4.4 it iterates "only
enabled entries"; it is embedded as the forward filtered traversal of the
static registry, yielding the indices of the enabled plugins in registry
order. -/
def GetEnabledDecoderPlugins (ps : List DecoderPlugin) (en : List Bool) : List Nat :=
  (List.range ps.length).filter (fun i => en.getD i false)

/-- Lower-casing of the suffix lookup key (DecoderList.cxx:287-290). -/
def ToLowerString (s : String) : String :=
  String.mk (s.data.map ToLowerASCII)

/-- `decoder_plugins_for_suffix` (DecoderList.cxx:281-304): start from the
priority-table entry for the lower-cased suffix (skipped entirely for an
empty suffix), then append every enabled plugin in registry order unless
already present.  The result is the list of plugin indices in trial order. -/
def decoder_plugins_for_suffix (ps : List DecoderPlugin) (en : List Bool)
    (table : List (String × List Nat)) (suffix : String) : List Nat :=
  let base : List Nat :=
    if suffix.isEmpty then []
    else
      match lookupPrio table (ToLowerString suffix) with
      | some l => l
      | none => []
  (GetEnabledDecoderPlugins ps en).foldl (fun r j => if j ∈ r then r else r ++ [j]) base

/-- `decoder_plugin_deinit_all` (DecoderList.cxx:263-268) calls `Finish` on
each element of `GetEnabledDecoderPlugins()`; the embedding returns the
indices of the plugins whose `Finish` is called, in call order. -/
def decoder_plugin_deinit_all (ps : List DecoderPlugin) (en : List Bool) : List Nat :=
  GetEnabledDecoderPlugins ps en

/-- Outcome of one `DecoderPlugin::Init` call, making the exception-based
control flow of DecoderList.cxx:247-257 explicit: returned `true`/`false`,
threw `PluginUnavailable`, or threw any other exception. -/
inductive InitResult where
  | ok (b : Bool)
  | unavailable
  | fatal
deriving DecidableEq

/-- Models `ConfigData::FindBlock(ConfigBlockOption::DECODER, "plugin", name)`
(`config/Data.hxx` is not under `src/`; modelled from the spec, §4.4 "find its
configuration block by plugin name"): index of the first decoder block whose
`plugin` value equals `name`. -/
def FindBlockIdx (config : List ConfigBlock) (name : String) : Option Nat :=
  config.findIdx? (fun b => b.plugin == some name)

/-- The skip test of DecoderList.cxx:238-242: a block was found for the
plugin and it sets `enabled` to `false` (`GetBlockValue("enabled", true)`
defaults to `true` when the option is absent). -/
def BlockDisabled (config : List ConfigBlock) (name : String) : Bool :=
  match FindBlockIdx config name with
  | some bi => !((config.getD bi default).enabled.getD true)
  | none => false

/-- The `param->SetUsed()` effect of DecoderList.cxx:244-245 on the used-block
accounting: when a configuration block was found for the plugin its index is
appended; when the plugin fell back to the local `empty` block no
configuration block is marked. -/
def UsedAfter (config : List ConfigBlock) (name : String) (used : List Nat) : List Nat :=
  match FindBlockIdx config name with
  | some bi => used ++ [bi]
  | none => used

/-- The plugin loop of `decoder_plugin_init_all` (DecoderList.cxx:232-258).
`initFn i` is the outcome of `decoder_plugins[i]->Init(*param)`.  The state
is the enabled array, the list of configuration-block indices marked used (in
marking order), and the propagated error: `none` while no exception escaped,
`some msg` after a non-`PluginUnavailable` exception was wrapped with the
plugin's name (`std::throw_with_nested(FmtRuntimeError(...))`) — in that case
the loop stops immediately and later plugins are never examined. -/
def initLoop (initFn : Nat → InitResult) (config : List ConfigBlock) :
    List DecoderPlugin → Nat → List Bool → List Nat →
    List Bool × List Nat × Option String
  | [], _, en, used => (en, used, none)
  | p :: rest, i, en, used =>
    if BlockDisabled config p.name then
      initLoop initFn config rest (i + 1) en used
    else
      let used2 := UsedAfter config p.name used
      match initFn i with
      | .ok true => initLoop initFn config rest (i + 1) (en.set i true) used2
      | .ok false => initLoop initFn config rest (i + 1) en used2
      | .unavailable => initLoop initFn config rest (i + 1) en used2
      | .fatal =>
        (en, used2, some ("Failed to initialize decoder plugin \"" ++ p.name ++ "\""))

/-- `decoder_plugin_init_all` (DecoderList.cxx:227-261): run the plugin loop
starting from the all-disabled state, then — only if no exception escaped the
loop — rebuild the codec priority table from the same configuration.  When
the loop aborts with a wrapped fatal error, the exception propagates out of
the function before the `BuildDecoderCodecPriorities(config)` call at line
260 is reached, so the previous table `priorities0` is left in place. -/
def decoder_plugin_init_all (ps : List DecoderPlugin) (initFn : Nat → InitResult)
    (config : List ConfigBlock) (priorities0 : List (String × List Nat)) :
    (List Bool × List Nat × Option String) × List (String × List Nat) :=
  let r := initLoop initFn config ps 0 (List.replicate ps.length false) []
  match r.2.2 with
  | none => (r, BuildDecoderCodecPriorities ps r.1 config)
  | some _ => (r, priorities0)

/-- Two's-complement wrap of an `int64_t` value: the result of storing the
mathematical integer `x` in an `int64_t`, as an integer in
`[-2^63, 2^63)`. -/
def wrap64 (x : Int) : Int :=
  (x + 2 ^ 63) % 2 ^ 64 - 2 ^ 63

/-- `FadeSample` (LazygsfDecoderPlugin.cxx:335-355): scale an `int16_t`
sample by `numerator/denominator` in `int64_t` arithmetic (C division
truncates toward zero, hence `Int.tdiv`), clamping the result to the
`int16_t` range.  A zero sample or a non-positive numerator or denominator
yields silence. -/
def FadeSample (sample numerator denominator : Int) : Int :=
  if sample = 0 then 0
  else if denominator ≤ 0 ∨ numerator ≤ 0 then 0
  else
    let scaled := Int.tdiv (wrap64 (sample * numerator)) denominator
    if scaled > 32767 then 32767
    else if scaled < -32768 then -32768
    else scaled

/-- `FadeUSFSample` (LazyusfDecoderPlugin.cxx:103-123): textually identical
to `FadeSample` above (verified by diff of the two plugin sources). -/
def FadeUSFSample (sample numerator denominator : Int) : Int :=
  if sample = 0 then 0
  else if denominator ≤ 0 ∨ numerator ≤ 0 then 0
  else
    let scaled := Int.tdiv (wrap64 (sample * numerator)) denominator
    if scaled > 32767 then 32767
    else if scaled < -32768 then -32768
    else scaled

/-- ASCII decimal digit test (`!(*q < '0' || *q > '9')`, with `'0' = 48` and
`'9' = 57`). -/
def IsAsciiDigit (c : Char) : Bool :=
  48 ≤ c.toNat && c.toNat ≤ 57

/-- Numeric value of an ASCII digit (`*q - '0'`, with `'0' = 48`). -/
def digitVal (c : Char) : Nat :=
  c.toNat - 48

/-- The `UINT32_MAX` clamp applied to every successful return value of
`ParsePsfTimeMS` (`ms > UINT32_MAX ? UINT32_MAX : ms`). -/
def clamp32 (x : Nat) : Nat :=
  if x > 2 ^ 32 - 1 then 2 ^ 32 - 1 else x

/-- Scanner state of the per-segment loop of `ParsePsfTimeMS`
(UpseDecoderPlugin.cxx:113-143 and the identical copies in
AopsfDecoderPlugin.cxx and LazygsfDecoderPlugin.cxx). -/
structure SegScan where
  seen_digit : Bool
  seen_fraction : Bool
  segment_seconds : Nat
  segment_ms : Nat
  fraction_digits : Nat
deriving DecidableEq

/-- The `for (const char *q = p; q != end; ++q)` scan over one
colon-delimited segment of `ParsePsfTimeMS`.  `hasColon` is
`colon != nullptr`, i.e. whether a further segment follows.  `none` is the
`return 0` path (a fraction marker in a non-last segment or repeated, or a
non-digit character); `uint64_t` accumulation carries an explicit
`% 2^64`. -/
def scanSegment (hasColon : Bool) : List Char → SegScan → Option SegScan
  | [], st => some st
  | c :: rest, st =>
    if c = '.' ∨ c = ',' then
      if st.seen_fraction ∨ hasColon then none
      else scanSegment hasColon rest { st with seen_fraction := true }
    else if c.toNat < 48 ∨ 57 < c.toNat then none
    else if !st.seen_fraction then
      scanSegment hasColon rest
        { st with seen_digit := true,
                  segment_seconds := (st.segment_seconds * 10 + digitVal c) % 2 ^ 64 }
    else if st.fraction_digits < 3 then
      scanSegment hasColon rest
        { st with seen_digit := true,
                  segment_ms := (st.segment_ms * 10 + digitVal c) % 2 ^ 64,
                  fraction_digits := st.fraction_digits + 1 }
    else scanSegment hasColon rest { st with seen_digit := true }

/-- The `while (fraction_digits < 3) segment_ms *= 10;` padding loop of
`ParsePsfTimeMS`, run for `3 - fraction_digits` iterations. -/
def padMsLoop : Nat → Nat → Nat
  | ms, 0 => ms
  | ms, k + 1 => padMsLoop ((ms * 10) % 2 ^ 64) k

/-- The outer `while (true)` loop of `ParsePsfTimeMS`: the `strchr(p, ':')`
walk visits exactly the colon-separated segments of the input, so the loop is
embedded as recursion over that segment list (`hasColon` false exactly on the
last segment).  Base-60 folding of `total_seconds` and the final
millisecond computation and `UINT32_MAX` clamp are as in the source, with
`uint64_t` arithmetic carrying an explicit `% 2^64`. -/
def psfSegLoop : Nat → List (List Char) → Nat
  | _, [] => 0
  | totalSeconds, seg :: rest =>
    match scanSegment (!rest.isEmpty) seg ⟨false, false, 0, 0, 0⟩ with
    | none => 0
    | some st =>
      if !st.seen_digit then 0
      else
        let ms := padMsLoop st.segment_ms (3 - st.fraction_digits)
        let total := (totalSeconds * 60 + st.segment_seconds) % 2 ^ 64
        match rest with
        | [] => clamp32 ((total * 1000 + ms) % 2 ^ 64)
        | _ :: _ => psfSegLoop total rest

/-- Decimal-digit accumulation of `strtoul` (and, without the modulus, of the
segment scanner): the numeric value of a digit string. -/
def natOfDigits (cs : List Char) : Nat :=
  cs.foldl (fun a c => a * 10 + digitVal c) 0

/-- The no-colon/no-dot/no-comma branch of `ParsePsfTimeMS`
(UpseDecoderPlugin.cxx:85-103): `strtoul(ts, &end, 10)` — leading C
whitespace skipped, one optional sign, decimal digits, `ULONG_MAX` on
overflow, unsigned negation for `'-'` — rejecting the string unless the
conversion consumed characters (`end != ts`) and reached the terminator
(`*end == 0`); then the seconds-vs-milliseconds heuristic at 10000 and the
`UINT32_MAX` clamp. -/
def ParsePsfIntBranch (cs : List Char) : Nat :=
  let afterWs := cs.dropWhile IsWhitespaceFast
  let neg := decide (afterWs.head? = some '-')
  let afterSign :=
    if afterWs.head? = some '-' ∨ afterWs.head? = some '+' then afterWs.tail
    else afterWs
  let digits := afterSign.takeWhile IsAsciiDigit
  let restChars := afterSign.dropWhile IsAsciiDigit
  if digits.isEmpty then 0
  else if !restChars.isEmpty then 0
  else
    let magnitude := natOfDigits digits
    let value :=
      if magnitude > 2 ^ 64 - 1 then 2 ^ 64 - 1
      else if neg then (2 ^ 64 - magnitude) % 2 ^ 64
      else magnitude
    let ms := if value ≥ 10000 then value else value * 1000
    clamp32 ms

/-- `ParsePsfTimeMS` (UpseDecoderPlugin.cxx:78-152; byte-identical copies
live in AopsfDecoderPlugin.cxx:87-160 and LazygsfDecoderPlugin.cxx:93-166,
verified by diff).  A `nullptr` or empty tag value yields 0; a string free
of `':'`, `'.'` and `','` takes the integer branch; otherwise the
colon-segment loop runs. -/
def ParsePsfTimeMS : Option String → Nat
  | none => 0
  | some s =>
    if s.data.isEmpty then 0
    else if ':' ∉ s.data ∧ '.' ∉ s.data ∧ ',' ∉ s.data then ParsePsfIntBranch s.data
    else psfSegLoop 0 (s.data.splitOn ':')

/-- Specification helper: digit accumulation in `uint64_t`, i.e. with the
wrap carried by the scanner. -/
def foldDigits64 (init : Nat) (cs : List Char) : Nat :=
  cs.foldl (fun a c => (a * 10 + digitVal c) % 2 ^ 64) init

/-- Specification helper: base-60 folding of segment values into seconds
(`total_seconds = total_seconds * 60 + segment_seconds`, without wrap). -/
def base60Fold (t : Nat) (vals : List Nat) : Nat :=
  vals.foldl (fun a v => a * 60 + v) t

/-- Specification helper: the milliseconds contributed by a fraction-digit
run — the first three digits, right-padded with zeros to three places. -/
def msOfFrac (frac : List Char) : Nat :=
  natOfDigits (frac.take 3) * 10 ^ (3 - min frac.length 3)

/-- Specification helper describing the fraction accumulation of the segment
scanner on a digit run: `(segment_ms, fraction_digits)` after consuming the
run, taking at most the first three digits. -/
def fracFold : Nat → Nat → List Char → Nat × Nat
  | ms, fd, [] => (ms, fd)
  | ms, fd, c :: rest =>
    if fd < 3 then fracFold ((ms * 10 + digitVal c) % 2 ^ 64) (fd + 1) rest
    else fracFold ms fd rest

/-! ## Claim C3: classification of `Init` outcomes in `decoder_plugin_init_all` -/

/-- C3: in `decoder_plugin_init_all`, for a plugin that is not skipped as
configuration-disabled: a fatal `Init` failure stops the loop at once — the
result does not process the remaining plugins — propagating the error wrapped
with the plugin's name; a `PluginUnavailable` failure continues with the next
plugin leaving the plugin disabled; `Init` returning `false` continues with
the plugin left disabled and no error; `Init` returning `true` marks the
plugin enabled and continues. -/
theorem initLoop_classifies_init_outcomes
    (initFn : Nat → InitResult) (config : List ConfigBlock)
    (p : DecoderPlugin) (rest : List DecoderPlugin)
    (i : Nat) (en : List Bool) (used : List Nat)
    (hreach : BlockDisabled config p.name = false) :
    (initFn i = .fatal →
      initLoop initFn config (p :: rest) i en used =
        (en, UsedAfter config p.name used,
         some ("Failed to initialize decoder plugin \"" ++ p.name ++ "\""))) ∧
    (initFn i = .unavailable →
      initLoop initFn config (p :: rest) i en used =
        initLoop initFn config rest (i + 1) en (UsedAfter config p.name used)) ∧
    (initFn i = .ok false →
      initLoop initFn config (p :: rest) i en used =
        initLoop initFn config rest (i + 1) en (UsedAfter config p.name used)) ∧
    (initFn i = .ok true →
      initLoop initFn config (p :: rest) i en used =
        initLoop initFn config rest (i + 1) (en.set i true) (UsedAfter config p.name used)) := by
  refine ⟨fun h => ?_, fun h => ?_, fun h => ?_, fun h => ?_⟩ <;>
    simp [initLoop, hreach, h]

/-- Witness for C3: a two-plugin registry where the first plugin's `Init`
throws a non-`PluginUnavailable` exception; the loop aborts with the wrapped
error, the second plugin untouched. -/
theorem initLoop_classifies_init_outcomes_witness :
    BlockDisabled [] "x" = false ∧
    initLoop (fun _ => InitResult.fatal) [] [⟨"x"⟩, ⟨"y"⟩] 0 [false, false] [] =
      ([false, false], [], some "Failed to initialize decoder plugin \"x\"") := by
  have h := initLoop_classifies_init_outcomes (fun _ => InitResult.fatal) []
    ⟨"x"⟩ [⟨"y"⟩] 0 [false, false] [] (by decide)
  exact ⟨by decide, h.1 rfl⟩

/-! ## Claim C4: is the priority table rebuilt even when initialization aborts? -/

/-- C4 counterexample: with a single plugin whose `Init` fails fatally and an
empty configuration, `decoder_plugin_init_all` aborts (the propagated error
is recorded) and the resulting codec priority table is the stale previous
table, *not* the table rebuilt from the given configuration — the exception
propagates before the `BuildDecoderCodecPriorities` call at
DecoderList.cxx:260 is reached. -/
theorem initAll_abort_keeps_stale_table_cex :
    (decoder_plugin_init_all [⟨"a"⟩] (fun _ => InitResult.fatal) [] [("stale", [0])]).1.2.2 =
      some "Failed to initialize decoder plugin \"a\"" ∧
    (decoder_plugin_init_all [⟨"a"⟩] (fun _ => InitResult.fatal) [] [("stale", [0])]).2 =
      [("stale", [0])] ∧
    (decoder_plugin_init_all [⟨"a"⟩] (fun _ => InitResult.fatal) [] [("stale", [0])]).2 ≠
      BuildDecoderCodecPriorities [⟨"a"⟩]
        (decoder_plugin_init_all [⟨"a"⟩] (fun _ => InitResult.fatal) [] [("stale", [0])]).1.1
        [] := by
  decide

/-- C4 amended: `decoder_plugin_init_all` rebuilds the codec priority table
from the given configuration exactly when the plugin loop completes without a
fatal `Init` failure; when the loop aborts, the error propagates before the
rebuild and the previous table is left unchanged. -/
theorem initAll_rebuilds_table_only_on_completion
    (ps : List DecoderPlugin) (initFn : Nat → InitResult) (config : List ConfigBlock)
    (priorities0 : List (String × List Nat)) (en : List Bool) (used : List Nat)
    (err : Option String)
    (h : initLoop initFn config ps 0 (List.replicate ps.length false) [] = (en, used, err)) :
    (err = none →
      decoder_plugin_init_all ps initFn config priorities0 =
        ((en, used, none), BuildDecoderCodecPriorities ps en config)) ∧
    (∀ e, err = some e →
      decoder_plugin_init_all ps initFn config priorities0 =
        ((en, used, some e), priorities0)) := by
  constructor
  · intro hnone
    subst hnone
    simp [decoder_plugin_init_all, h]
  · intro e hsome
    subst hsome
    simp [decoder_plugin_init_all, h]

/-- Witness for the amended C4, exercising both the completed run (table
rebuilt from the configuration) and the aborted run (stale table kept). -/
theorem initAll_rebuilds_table_only_on_completion_witness :
    decoder_plugin_init_all [⟨"a"⟩] (fun _ => InitResult.ok true)
        [⟨some "a", none, some "foo"⟩] [("stale", [9])] =
      (([true], [0], none), [("foo", [0])]) ∧
    decoder_plugin_init_all [⟨"a"⟩] (fun _ => InitResult.fatal)
        [⟨some "a", none, some "foo"⟩] [("stale", [9])] =
      (([false], [0], some "Failed to initialize decoder plugin \"a\""), [("stale", [9])]) := by
  constructor
  · have h := initAll_rebuilds_table_only_on_completion [⟨"a"⟩] (fun _ => InitResult.ok true)
      [⟨some "a", none, some "foo"⟩] [("stale", [9])] [true] [0] none (by decide)
    rw [h.1 rfl]
    decide
  · have h := initAll_rebuilds_table_only_on_completion [⟨"a"⟩] (fun _ => InitResult.fatal)
      [⟨some "a", none, some "foo"⟩] [("stale", [9])] [false] [0]
      (some "Failed to initialize decoder plugin \"a\"") (by decide)
    rw [h.2 _ rfl]

/-! ## Claim C5: is a `enabled=false` block still marked used? -/

/-- C5 counterexample: one plugin `"a"` whose configuration block sets
`enabled = false`.  The loop completes with the plugin disabled and — contrary
to the claim — the block is *not* marked used: the `continue` at
DecoderList.cxx:242 runs before `param->SetUsed()` at line 245.  Passing an
`Init` outcome of `fatal` also shows `Init` is never called (no error is
propagated). -/
theorem disabled_block_not_marked_used_cex :
    initLoop (fun _ => InitResult.fatal) [⟨some "a", some false, none⟩] [⟨"a"⟩] 0 [false] [] =
      ([false], [], none) ∧
    0 ∉ (initLoop (fun _ => InitResult.fatal) [⟨some "a", some false, none⟩]
          [⟨"a"⟩] 0 [false] []).2.1 := by
  decide

/-- C5 amended: a plugin whose configuration block explicitly sets
`enabled=false` is skipped entirely — its `Init` is not called, it stays
disabled — and its configuration block is *not* marked used (the used-block
accounting is unchanged). -/
theorem disabled_block_skipped_entirely
    (initFn : Nat → InitResult) (config : List ConfigBlock)
    (p : DecoderPlugin) (rest : List DecoderPlugin)
    (i : Nat) (en : List Bool) (used : List Nat)
    (hdis : BlockDisabled config p.name = true) :
    initLoop initFn config (p :: rest) i en used =
      initLoop initFn config rest (i + 1) en used := by
  simp [initLoop, hdis]

/-- Witness for the amended C5. -/
theorem disabled_block_skipped_entirely_witness :
    initLoop (fun _ => InitResult.fatal) [⟨some "a", some false, none⟩]
        [⟨"a"⟩, ⟨"b"⟩] 0 [false, false] [] =
      initLoop (fun _ => InitResult.fatal) [⟨some "a", some false, none⟩]
        [⟨"b"⟩] 1 [false, false] [] := by
  exact disabled_block_skipped_entirely (fun _ => InitResult.fatal)
    [⟨some "a", some false, none⟩] ⟨"a"⟩ [⟨"b"⟩] 0 [false, false] [] (by decide)

/-! ## Claim C6: does `ParseCodecList` collapse case-folded duplicates? -/

/-- C6 counterexample: parsing `"flac, FLAC ,,mp3"` does *not* yield
`["flac", "mp3"]` — `ParseCodecList` never deduplicates tokens. -/
theorem parseCodecList_dedup_cex :
    ParseCodecList (some "flac, FLAC ,,mp3") ≠ ["flac", "mp3"] := by decide

/-- C6 amended: parsing `"flac, FLAC ,,mp3"` yields
`["flac", "flac", "mp3"]` — each token lower-cased, delimiter runs collapsed,
leading/trailing delimiters ignored — and tokens identical after case folding
are kept by the parser; the duplicate is only collapsed later, when
`BuildDecoderCodecPriorities` inserts into the priority table (the plugin is
appended to a codec's list only if not already present). -/
theorem parseCodecList_keeps_case_folded_duplicates :
    ParseCodecList (some "flac, FLAC ,,mp3") = ["flac", "flac", "mp3"] ∧
    BuildDecoderCodecPriorities [⟨"p"⟩] [true]
        [⟨some "p", none, some "flac, FLAC ,,mp3"⟩] =
      [("flac", [0]), ("mp3", [0])] := by
  decide

/-! ## Claim C7: which plugins does `decoder_plugin_deinit_all` finalize, and in
what order? -/

/-- C7 counterexample: with two enabled plugins, `decoder_plugin_deinit_all`
calls `Finish` in forward registry order `[0, 1]`, not in reverse of the
static registry order. -/
theorem deinit_not_reverse_cex :
    decoder_plugin_deinit_all [⟨"a"⟩, ⟨"b"⟩] [true, true] = [0, 1] ∧
    decoder_plugin_deinit_all [⟨"a"⟩, ⟨"b"⟩] [true, true] ≠
      (GetEnabledDecoderPlugins [⟨"a"⟩, ⟨"b"⟩] [true, true]).reverse := by
  decide

/-- C7 amended: `decoder_plugin_deinit_all` calls `Finish` exactly on the
plugins that successfully initialized (the enabled entries), in *forward*
static registry order (strictly increasing registry indices). -/
theorem deinit_exactly_enabled_in_registry_order
    (ps : List DecoderPlugin) (en : List Bool) :
    (∀ i, i ∈ decoder_plugin_deinit_all ps en ↔
      (i < ps.length ∧ en.getD i false = true)) ∧
    List.Pairwise (· < ·) (decoder_plugin_deinit_all ps en) := by
  constructor
  · intro i
    simp [decoder_plugin_deinit_all, GetEnabledDecoderPlugins, List.mem_filter]
  · exact List.Pairwise.filter _ (List.pairwise_lt_range _)

/-! ## Priority-table lemmas shared by claims C1, C2 and C8 -/

/-- Effect of one `prioInsert` on lookups: the targeted codec's entry is
bumped, every other entry is untouched. -/
theorem lookupPrio_prioInsert (t : List (String × List Nat)) (c : String)
    (j : Nat) (c' : String) :
    lookupPrio (prioInsert t c j) c' =
      if c' = c then some (prioBump (lookupPrio t c) j) else lookupPrio t c' := by
  induction t with
  | nil =>
    by_cases h : c' = c
    · subst h
      simp [prioInsert, lookupPrio, prioBump]
    · simp [prioInsert, lookupPrio, prioBump, h, Ne.symm h]
  | cons kv rest ih =>
    obtain ⟨k, l⟩ := kv
    by_cases hk : k = c
    · subst hk
      by_cases h : c' = k
      · subst h
        simp [prioInsert, lookupPrio, prioBump]
      · simp [prioInsert, lookupPrio, h, Ne.symm h]
    · by_cases h : c' = c
      · subst h
        simp [prioInsert, lookupPrio, hk, ih, prioBump]
      · by_cases hk' : k = c'
        · subst hk'
          simp [prioInsert, lookupPrio, hk, h]
        · simp [prioInsert, lookupPrio, hk, h, hk', ih]

/-- Membership in a bumped entry comes from the old entry or is the inserted
plugin. -/
theorem mem_prioBump {old : Option (List Nat)} {j idx : Nat}
    (h : idx ∈ prioBump old j) :
    (∃ l0, old = some l0 ∧ idx ∈ l0) ∨ idx = j := by
  cases old with
  | none =>
    simp [prioBump] at h
    exact Or.inr h
  | some l0 =>
    by_cases hj : j ∈ l0
    · simp [prioBump, hj] at h
      exact Or.inl ⟨l0, rfl, h⟩
    · simp only [prioBump, if_neg hj, List.mem_append, List.mem_singleton] at h
      rcases h with h | h
      · exact Or.inl ⟨l0, rfl, h⟩
      · exact Or.inr h

/-- Bumping preserves duplicate-freedom of the entry. -/
theorem nodup_prioBump {old : Option (List Nat)} {j : Nat}
    (h : ∀ l0, old = some l0 → l0.Nodup) : (prioBump old j).Nodup := by
  cases old with
  | none => simp [prioBump]
  | some l0 =>
    have h0 := h l0 rfl
    by_cases hj : j ∈ l0
    · simpa [prioBump, hj] using h0
    · simp [prioBump, hj, List.nodup_append, h0]

/-- Folding the per-token insertions of one configuration block preserves
duplicate-freedom of every entry. -/
theorem lookupPrio_foldl_prioInsert_nodup (cs : List String) (j : Nat)
    (t : List (String × List Nat))
    (ht : ∀ c l, lookupPrio t c = some l → l.Nodup) :
    ∀ c l, lookupPrio (cs.foldl (fun t' c' => prioInsert t' c' j) t) c = some l →
      l.Nodup := by
  induction cs generalizing t with
  | nil => exact ht
  | cons a cs ih =>
    rw [List.foldl_cons]
    apply ih
    intro c l hl
    rw [lookupPrio_prioInsert] at hl
    split at hl
    · cases hl
      exact nodup_prioBump (fun l0 h0 => ht a l0 h0)
    · exact ht c l hl

/-- Membership after the per-token insertions of one block: the plugin was
already there, or it is the inserted plugin under one of the block's
tokens. -/
theorem mem_lookupPrio_foldl_prioInsert (cs : List String) (j : Nat)
    (t : List (String × List Nat)) (c : String) (l : List Nat) (idx : Nat)
    (h : lookupPrio (cs.foldl (fun t' c' => prioInsert t' c' j) t) c = some l)
    (hm : idx ∈ l) :
    (∃ l0, lookupPrio t c = some l0 ∧ idx ∈ l0) ∨ (c ∈ cs ∧ idx = j) := by
  induction cs generalizing t with
  | nil => exact Or.inl ⟨l, h, hm⟩
  | cons a cs ih =>
    rw [List.foldl_cons] at h
    rcases ih _ h with ⟨l0, h0, hm0⟩ | ⟨hc, hij⟩
    · rw [lookupPrio_prioInsert] at h0
      split at h0
      next hca =>
        cases h0
        rcases mem_prioBump hm0 with ⟨l1, h1, hm1⟩ | hij
        · exact Or.inl ⟨l1, hca ▸ h1, hm1⟩
        · exact Or.inr ⟨hca ▸ List.mem_cons_self a cs, hij⟩
      · exact Or.inl ⟨l0, h0, hm0⟩
    · exact Or.inr ⟨List.mem_cons_of_mem a hc, hij⟩

/-- Every entry of the table built by the configuration fold is
duplicate-free (given that of the starting table). -/
theorem buildFold_nodup (ps : List DecoderPlugin) (en : List Bool)
    (cfgs : List ConfigBlock) (t : List (String × List Nat))
    (ht : ∀ c l, lookupPrio t c = some l → l.Nodup) :
    ∀ c l, lookupPrio (cfgs.foldl (buildStep ps en) t) c = some l → l.Nodup := by
  induction cfgs generalizing t with
  | nil => exact ht
  | cons b cfgs ih =>
    rw [List.foldl_cons]
    apply ih
    intro c l hl
    unfold buildStep at hl
    split at hl
    · exact ht c l hl
    · split at hl
      · exact ht c l hl
      · split at hl
        · exact ht c l hl
        · exact lookupPrio_foldl_prioInsert_nodup _ _ _ ht c l hl

/-- Every entry of the built codec priority table is duplicate-free. -/
theorem lookupPrio_build_nodup (ps : List DecoderPlugin) (en : List Bool)
    (config : List ConfigBlock) (c : String) (l : List Nat)
    (h : lookupPrio (BuildDecoderCodecPriorities ps en config) c = some l) :
    l.Nodup := by
  refine buildFold_nodup ps en config [] ?_ c l h
  intro c l hl
  simp [lookupPrio] at hl

/-- Origin of table entries through the configuration fold: any plugin found
under a codec was there initially (property `M`) or comes from one of the
processed blocks — that block names a plugin that resolved (among enabled
plugins) to this index, and the codec is one of its parsed tokens. -/
theorem buildFold_origin (ps : List DecoderPlugin) (en : List Bool)
    (M : String → Nat → Prop) (cfgs : List ConfigBlock)
    (t : List (String × List Nat))
    (ht : ∀ c l idx, lookupPrio t c = some l → idx ∈ l → M c idx) :
    ∀ c l idx, lookupPrio (cfgs.foldl (buildStep ps en) t) c = some l → idx ∈ l →
      M c idx ∨ ∃ b ∈ cfgs, ∃ nm, b.plugin = some nm ∧
        decoder_plugin_from_name ps en nm = some idx ∧
        c ∈ ParseCodecList b.codecs := by
  induction cfgs generalizing t M with
  | nil =>
    intro c l idx h hm
    exact Or.inl (ht c l idx h hm)
  | cons b cfgs ih =>
    intro c l idx h hm
    rw [List.foldl_cons] at h
    have step : ∀ c l idx, lookupPrio (buildStep ps en t b) c = some l → idx ∈ l →
        M c idx ∨ ∃ nm, b.plugin = some nm ∧
          decoder_plugin_from_name ps en nm = some idx ∧
          c ∈ ParseCodecList b.codecs := by
      intro c l idx hl hmm
      unfold buildStep at hl
      split at hl
      · exact Or.inl (ht _ _ _ hl hmm)
      next pname hpn =>
        split at hl
        · exact Or.inl (ht _ _ _ hl hmm)
        next idx2 hfn =>
          split at hl
          · exact Or.inl (ht _ _ _ hl hmm)
          · rcases mem_lookupPrio_foldl_prioInsert _ _ _ _ _ _ hl hmm with
              ⟨l0, h0, hm0⟩ | ⟨hc, hij⟩
            · exact Or.inl (ht _ _ _ h0 hm0)
            · subst hij
              exact Or.inr ⟨pname, hpn, hfn, hc⟩
    rcases ih (fun c idx => M c idx ∨ ∃ nm, b.plugin = some nm ∧
        decoder_plugin_from_name ps en nm = some idx ∧
        c ∈ ParseCodecList b.codecs) _ step c l idx h hm with
      (hM | horig) | ⟨b', hb', rest⟩
    · exact Or.inl hM
    · exact Or.inr ⟨b, List.mem_cons_self b cfgs, horig⟩
    · exact Or.inr ⟨b', List.mem_cons_of_mem b hb', rest⟩

/-- A successful name lookup yields an enabled registry index whose plugin
carries exactly that name. -/
theorem from_name_enabled (ps : List DecoderPlugin) (en : List Bool)
    (nm : String) (idx : Nat)
    (h : decoder_plugin_from_name ps en nm = some idx) :
    en.getD idx false = true ∧ idx < ps.length ∧
      ∃ p, ps.get? idx = some p ∧ p.name = nm := by
  unfold decoder_plugin_from_name decoder_plugins_find at h
  have hp := List.find?_some h
  have hmem := List.mem_of_find?_eq_some h
  rw [List.mem_range] at hmem
  rw [Bool.and_eq_true] at hp
  refine ⟨hp.1, hmem, ?_⟩
  rcases hget : ps.get? idx with _ | p
  · rw [hget] at hp
    simp at hp
  · rw [hget] at hp
    refine ⟨p, rfl, ?_⟩
    have := hp.2
    simp at this
    exact this

/-- The distinct-append fold of `decoder_plugins_for_suffix`
(DecoderList.cxx:297-301) equals the base list followed by the not-yet-present
elements, provided both lists are duplicate-free. -/
theorem foldl_append_distinct (L r : List Nat) (hr : r.Nodup) (hL : L.Nodup) :
    L.foldl (fun acc j => if j ∈ acc then acc else acc ++ [j]) r =
      r ++ L.filter (fun j => decide (j ∉ r)) := by
  induction L generalizing r with
  | nil => simp
  | cons a L ih =>
    rw [List.foldl_cons]
    by_cases ha : a ∈ r
    · rw [if_pos ha, ih r hr (List.Nodup.of_cons hL)]
      simp [List.filter_cons, ha]
    · rw [if_neg ha]
      have hr2 : (r ++ [a]).Nodup := by
        simp [List.nodup_append, hr, ha]
      rw [ih (r ++ [a]) hr2 (List.Nodup.of_cons hL)]
      have hfc : L.filter (fun j => decide (j ∉ r ++ [a])) =
          L.filter (fun j => decide (j ∉ r)) := by
        apply List.filter_congr
        intro x hx
        have hxa : x ≠ a := by
          intro e
          subst e
          exact (List.nodup_cons.mp hL).1 hx
        simp [List.mem_append, hxa]
      rw [hfc]
      simp [List.filter_cons, ha]

/-- The distinct-append fold produces a duplicate-free list. -/
theorem foldl_append_distinct_nodup (L r : List Nat) (hr : r.Nodup) (hL : L.Nodup) :
    (L.foldl (fun acc j => if j ∈ acc then acc else acc ++ [j]) r).Nodup := by
  rw [foldl_append_distinct L r hr hL]
  refine List.Nodup.append hr (List.Nodup.filter _ hL) ?_
  intro x hx1 hx2
  have hx3 := List.of_mem_filter hx2
  simp at hx3
  exact hx3 hx1

/-- The enabled-registry traversal is duplicate-free. -/
theorem getEnabled_nodup (ps : List DecoderPlugin) (en : List Bool) :
    (GetEnabledDecoderPlugins ps en).Nodup :=
  List.Nodup.filter _ (List.nodup_range _)

/-! ## Claim C1: override prefix, registry-order completion, no duplicates -/

/-- C1: for a (non-empty) suffix whose lower-cased key maps, in the codec
priority table built from the configuration, to the override list
`[p1, p2]`, with both plugins enabled, `decoder_plugins_for_suffix` returns
exactly `[p1, p2]` — in override order — followed by every remaining enabled
plugin in static registry order, and the result has no duplicate plugin
reference. -/
theorem for_suffix_override_order
    (ps : List DecoderPlugin) (en : List Bool) (config : List ConfigBlock)
    (suffix : String) (p1 p2 : Nat)
    (hsuf : suffix.isEmpty = false)
    (hlook : lookupPrio (BuildDecoderCodecPriorities ps en config)
      (ToLowerString suffix) = some [p1, p2])
    (hen1 : en.getD p1 false = true) (hen2 : en.getD p2 false = true) :
    decoder_plugins_for_suffix ps en (BuildDecoderCodecPriorities ps en config) suffix =
      [p1, p2] ++ (GetEnabledDecoderPlugins ps en).filter
        (fun j => decide (j ∉ ([p1, p2] : List Nat))) ∧
    (decoder_plugins_for_suffix ps en
      (BuildDecoderCodecPriorities ps en config) suffix).Nodup := by
  have hnd : ([p1, p2] : List Nat).Nodup :=
    lookupPrio_build_nodup ps en config (ToLowerString suffix) [p1, p2] hlook
  have hL := getEnabled_nodup ps en
  have hbase : decoder_plugins_for_suffix ps en
      (BuildDecoderCodecPriorities ps en config) suffix =
      (GetEnabledDecoderPlugins ps en).foldl
        (fun r j => if j ∈ r then r else r ++ [j]) [p1, p2] := by
    simp [decoder_plugins_for_suffix, hsuf, hlook]
  refine ⟨?_, ?_⟩
  · rw [hbase, foldl_append_distinct _ _ hnd hL]
  · rw [hbase]
    exact foldl_append_distinct_nodup _ _ hnd hL

/-- Witness for C1: registry `[a, b, c]`, all enabled, two override blocks
giving `foo -> [b, a]`; resolution for `"FOO"` is `[1, 0, 2]`. -/
theorem for_suffix_override_order_witness :
    decoder_plugins_for_suffix [⟨"a"⟩, ⟨"b"⟩, ⟨"c"⟩] [true, true, true]
      (BuildDecoderCodecPriorities [⟨"a"⟩, ⟨"b"⟩, ⟨"c"⟩] [true, true, true]
        [⟨some "b", none, some "foo"⟩, ⟨some "a", none, some "foo"⟩]) "FOO" =
      [1, 0] ++ (GetEnabledDecoderPlugins [⟨"a"⟩, ⟨"b"⟩, ⟨"c"⟩] [true, true, true]).filter
        (fun j => decide (j ∉ ([1, 0] : List Nat))) ∧
    (decoder_plugins_for_suffix [⟨"a"⟩, ⟨"b"⟩, ⟨"c"⟩] [true, true, true]
      (BuildDecoderCodecPriorities [⟨"a"⟩, ⟨"b"⟩, ⟨"c"⟩] [true, true, true]
        [⟨some "b", none, some "foo"⟩, ⟨some "a", none, some "foo"⟩]) "FOO").Nodup :=
  for_suffix_override_order [⟨"a"⟩, ⟨"b"⟩, ⟨"c"⟩] [true, true, true]
    [⟨some "b", none, some "foo"⟩, ⟨some "a", none, some "foo"⟩] "FOO" 1 0
    (by decide) (by decide) (by decide) (by decide)

/-! ## Claim C2: the table invariant -/

/-- C2: after any rebuild of the codec priority table, a plugin index appears
in some suffix's priority list only if that plugin is enabled, and some
configuration block names a plugin that resolved (among the enabled plugins,
at table-build time) to this index and lists this suffix among its parsed
codec tokens.  In particular no disabled plugin ever appears in the table. -/
theorem build_table_invariant
    (ps : List DecoderPlugin) (en : List Bool) (config : List ConfigBlock)
    (codec : String) (l : List Nat) (idx : Nat)
    (hlook : lookupPrio (BuildDecoderCodecPriorities ps en config) codec = some l)
    (hmem : idx ∈ l) :
    en.getD idx false = true ∧
    ∃ b ∈ config, ∃ nm, b.plugin = some nm ∧
      decoder_plugin_from_name ps en nm = some idx ∧
      codec ∈ ParseCodecList b.codecs := by
  have horig := buildFold_origin ps en (fun _ _ => False) config []
    (by intro c l idx h hm; simp [lookupPrio] at h) codec l idx hlook hmem
  rcases horig with hF | ⟨b, hb, nm, hpn, hfn, hc⟩
  · exact absurd hF not_false
  · exact ⟨(from_name_enabled ps en nm idx hfn).1, b, hb, nm, hpn, hfn, hc⟩

/-- Witness for C2: a one-plugin registry and one override block; the single
table entry for `"foo"` holds plugin 0, which is enabled and named by that
block. -/
theorem build_table_invariant_witness :
    [true].getD 0 false = true ∧
    ∃ b ∈ [(⟨some "a", none, some "foo"⟩ : ConfigBlock)], ∃ nm,
      b.plugin = some nm ∧
      decoder_plugin_from_name [⟨"a"⟩] [true] nm = some 0 ∧
      "foo" ∈ ParseCodecList b.codecs :=
  build_table_invariant [⟨"a"⟩] [true] [⟨some "a", none, some "foo"⟩]
    "foo" [0] 0 (by decide) (by decide)

/-! ## Claim C8: empty suffix and empty configuration degrade to registry order -/

/-- C8: `decoder_plugins_for_suffix` with an empty suffix returns every
enabled plugin in static registry order regardless of the table; rebuilding
the priority table from a configuration with no decoder blocks yields the
empty table; and with that empty table every suffix resolves to plain
enabled-registry order. -/
theorem for_suffix_empty_cases
    (ps : List DecoderPlugin) (en : List Bool)
    (table : List (String × List Nat)) (suffix : String) :
    decoder_plugins_for_suffix ps en table "" = GetEnabledDecoderPlugins ps en ∧
    BuildDecoderCodecPriorities ps en [] = [] ∧
    decoder_plugins_for_suffix ps en (BuildDecoderCodecPriorities ps en []) suffix =
      GetEnabledDecoderPlugins ps en := by
  have hL := getEnabled_nodup ps en
  have hfold : (GetEnabledDecoderPlugins ps en).foldl
      (fun r j => if j ∈ r then r else r ++ [j]) [] =
      GetEnabledDecoderPlugins ps en := by
    rw [foldl_append_distinct _ _ List.nodup_nil hL]
    simp
  have h0 : ("".isEmpty : Bool) = true := by decide
  refine ⟨?_, rfl, ?_⟩
  · rw [show decoder_plugins_for_suffix ps en table "" =
      (GetEnabledDecoderPlugins ps en).foldl
        (fun r j => if j ∈ r then r else r ++ [j]) [] by
        simp [decoder_plugins_for_suffix, h0]]
    exact hfold
  · rw [show decoder_plugins_for_suffix ps en (BuildDecoderCodecPriorities ps en []) suffix =
      (GetEnabledDecoderPlugins ps en).foldl
        (fun r j => if j ∈ r then r else r ++ [j]) [] by
        by_cases h : suffix.isEmpty <;>
          simp [decoder_plugins_for_suffix, BuildDecoderCodecPriorities, h, lookupPrio]]
    exact hfold

/-! ## Claim C9: the fade scaling functions -/

/-- The two's-complement wrap always lands in the `int64_t` range. -/
theorem wrap64_bounds (x : Int) : -2 ^ 63 ≤ wrap64 x ∧ wrap64 x < 2 ^ 63 := by
  unfold wrap64
  have h1 := Int.emod_nonneg (x + 2 ^ 63) (by norm_num : ((2:Int) ^ 64) ≠ 0)
  have h2 := Int.emod_lt_of_pos (x + 2 ^ 63) (by norm_num : (0:Int) < 2 ^ 64)
  omega

/-- A value already in the `int64_t` range is unchanged by the wrap. -/
theorem wrap64_eq_self (x : Int) (h1 : -2 ^ 63 ≤ x) (h2 : x < 2 ^ 63) :
    wrap64 x = x := by
  unfold wrap64
  rw [Int.emod_eq_of_lt (by omega) (by omega)]
  omega

/-- Magnitude bound for the scaled quotient of `FadeSample`: with
`0 < n ≤ d`, `|wrap64(s*n) tdiv d| ≤ |s|` — in the no-overflow case because
the ratio is at most one, and in the overflow case because an overflowing
product forces `d ≥ 2^63 / |s|` while the wrapped value is at most `2^63`
in magnitude. -/
theorem tdiv_scaled_le (s n d : Int) (hn : 0 < n) (hnd : n ≤ d) :
    ((wrap64 (s * n)).tdiv d).natAbs ≤ s.natAbs := by
  have hd : 0 < d := lt_of_lt_of_le hn hnd
  have hdpos : 0 < d.natAbs := by omega
  have hnle : n.natAbs ≤ d.natAbs := by omega
  rw [Int.natAbs_tdiv]
  by_cases hof : -2 ^ 63 ≤ s * n ∧ s * n < 2 ^ 63
  · rw [wrap64_eq_self _ hof.1 hof.2, Int.natAbs_mul]
    calc s.natAbs * n.natAbs / d.natAbs
        ≤ s.natAbs * d.natAbs / d.natAbs :=
          Nat.div_le_div_right (Nat.mul_le_mul_left _ hnle)
      _ = s.natAbs := Nat.mul_div_cancel _ hdpos
  · have hw := wrap64_bounds (s * n)
    have hwa : (wrap64 (s * n)).natAbs ≤ 2 ^ 63 := by omega
    have hbig : 2 ^ 63 ≤ (s * n).natAbs := by omega
    rw [Int.natAbs_mul] at hbig
    refine Nat.div_le_of_le_mul' ?_
    calc (wrap64 (s * n)).natAbs ≤ 2 ^ 63 := hwa
      _ ≤ s.natAbs * n.natAbs := hbig
      _ ≤ s.natAbs * d.natAbs := Nat.mul_le_mul_left _ hnle
      _ = d.natAbs * s.natAbs := Nat.mul_comm _ _

/-- Bounds for `FadeSample` on an in-range sample with `0 < n ≤ d`. -/
theorem FadeSample_core (s n d : Int) (hlo : -32768 ≤ s) (hhi : s ≤ 32767)
    (hn : 0 < n) (hnd : n ≤ d) :
    (FadeSample s n d).natAbs ≤ s.natAbs ∧
    -32768 ≤ FadeSample s n d ∧ FadeSample s n d ≤ 32767 := by
  have hd : 0 < d := lt_of_lt_of_le hn hnd
  by_cases hs : s = 0
  · subst hs
    simp [FadeSample]
  · have hq := tdiv_scaled_le s n d hn hnd
    have hcond : ¬(d ≤ 0 ∨ n ≤ 0) := by omega
    have heq : FadeSample s n d =
        (if (wrap64 (s * n)).tdiv d > 32767 then 32767
         else if (wrap64 (s * n)).tdiv d < -32768 then -32768
         else (wrap64 (s * n)).tdiv d) := by
      simp [FadeSample, hs, hcond]
    rw [heq]
    by_cases h1 : (wrap64 (s * n)).tdiv d > 32767
    · rw [if_pos h1]
      omega
    · rw [if_neg h1]
      by_cases h2 : (wrap64 (s * n)).tdiv d < -32768
      · rw [if_pos h2]
        omega
      · rw [if_neg h2]
        omega

/-- The two fade helpers are the same function (the two plugin sources carry
byte-identical definitions). -/
theorem FadeUSFSample_eq_FadeSample (s n d : Int) :
    FadeUSFSample s n d = FadeSample s n d := rfl

/-- C9: for an in-range `int16_t` sample and any `int64_t` numerator and
denominator with `0 < numerator ≤ denominator`, both `FadeSample` (GSF
plugin) and `FadeUSFSample` (USF plugin) return a value of magnitude at most
the input sample's magnitude, within the `int16_t` range; and whenever the
numerator or denominator is non-positive both return 0. -/
theorem fade_scaling_bounded (s n d : Int)
    (hlo : -32768 ≤ s) (hhi : s ≤ 32767) :
    (0 < n → n ≤ d →
      ((FadeSample s n d).natAbs ≤ s.natAbs ∧
        -32768 ≤ FadeSample s n d ∧ FadeSample s n d ≤ 32767) ∧
      ((FadeUSFSample s n d).natAbs ≤ s.natAbs ∧
        -32768 ≤ FadeUSFSample s n d ∧ FadeUSFSample s n d ≤ 32767)) ∧
    ((n ≤ 0 ∨ d ≤ 0) → FadeSample s n d = 0 ∧ FadeUSFSample s n d = 0) := by
  constructor
  · intro hn hnd
    have h := FadeSample_core s n d hlo hhi hn hnd
    rw [FadeUSFSample_eq_FadeSample]
    exact ⟨h, h⟩
  · intro h0
    have hz : FadeSample s n d = 0 := by
      by_cases hs : s = 0
      · simp [FadeSample, hs]
      · have : d ≤ 0 ∨ n ≤ 0 := h0.symm.imp id id |>.symm.elim Or.inr Or.inl
        simp [FadeSample, hs, this]
    rw [FadeUSFSample_eq_FadeSample]
    exact ⟨hz, hz⟩

/-- Witness for C9 at sample 100, numerator 1, denominator 2 (and the
silence case at numerator 0). -/
theorem fade_scaling_bounded_witness :
    ((FadeSample 100 1 2).natAbs ≤ (100 : Int).natAbs ∧
      -32768 ≤ FadeSample 100 1 2 ∧ FadeSample 100 1 2 ≤ 32767) ∧
    ((FadeUSFSample 100 1 2).natAbs ≤ (100 : Int).natAbs ∧
      -32768 ≤ FadeUSFSample 100 1 2 ∧ FadeUSFSample 100 1 2 ≤ 32767) ∧
    FadeSample 100 0 2 = 0 ∧ FadeUSFSample 100 0 2 = 0 := by
  have h1 := (fade_scaling_bounded 100 1 2 (by decide) (by decide)).1
    (by decide) (by decide)
  have h2 := (fade_scaling_bounded 100 0 2 (by decide) (by decide)).2
    (Or.inl (by decide))
  exact ⟨h1.1, h1.2, h2⟩

/-! ## Lemmas for claim C10: `ParsePsfTimeMS` -/

/-- An ASCII digit is none of the special characters of `ParsePsfTimeMS`. -/
theorem digit_char_facts (c : Char) (h : IsAsciiDigit c = true) :
    c ≠ '-' ∧ c ≠ '+' ∧ c ≠ ':' ∧ c ≠ '.' ∧ c ≠ ',' ∧
    IsWhitespaceFast c = false ∧ ¬(c.toNat < 48 ∨ 57 < c.toNat) := by
  simp only [IsAsciiDigit, Bool.and_eq_true, decide_eq_true_eq] at h
  obtain ⟨h1, h2⟩ := h
  refine ⟨?_, ?_, ?_, ?_, ?_, ?_, by omega⟩
  · intro hc; subst hc; exact absurd h1 (by decide)
  · intro hc; subst hc; exact absurd h1 (by decide)
  · intro hc; subst hc; exact absurd h2 (by decide)
  · intro hc; subst hc; exact absurd h1 (by decide)
  · intro hc; subst hc; exact absurd h1 (by decide)
  · simp only [IsWhitespaceFast, Bool.or_eq_false_iff, decide_eq_false_iff_not]
    refine ⟨⟨⟨⟨⟨?_, ?_⟩, ?_⟩, ?_⟩, ?_⟩, ?_⟩ <;>
      (intro hc; subst hc; first
        | exact absurd h1 (by decide)
        | exact absurd h2 (by decide))

/-- Scanning a pure digit run accumulates `segment_seconds`, sets
`seen_digit` when the run is non-empty, and leaves the fraction state
alone. -/
theorem scanSegment_digits (hc : Bool) (seg : List Char) (st : SegScan)
    (hdig : ∀ c ∈ seg, IsAsciiDigit c = true) (hsf : st.seen_fraction = false) :
    scanSegment hc seg st =
      some ⟨st.seen_digit || !seg.isEmpty, false,
            foldDigits64 st.segment_seconds seg, st.segment_ms,
            st.fraction_digits⟩ := by
  induction seg generalizing st with
  | nil =>
    cases st
    simp_all [scanSegment, foldDigits64]
  | cons c rest ih =>
    have hf := digit_char_facts c (hdig c (List.mem_cons_self c rest))
    have hnm : ¬(c = '.' ∨ c = ',') := by
      rintro (hc' | hc')
      · exact hf.2.2.2.1 hc'
      · exact hf.2.2.2.2.1 hc'
    rw [scanSegment, if_neg hnm, if_neg hf.2.2.2.2.2.2]
    have hsf' : st.seen_fraction = false := hsf
    rw [if_pos (by simp [hsf])]
    rw [ih _ (fun c' hc' => hdig c' (List.mem_cons_of_mem c hc'))
      (by simp [hsf])]
    simp [foldDigits64, hsf]

/-- Scanning a digit run in fraction mode accumulates `segment_ms` and
`fraction_digits` as described by `fracFold`. -/
theorem scanSegment_frac_digits (hc : Bool) (frac : List Char) (st : SegScan)
    (hdig : ∀ c ∈ frac, IsAsciiDigit c = true) (hsf : st.seen_fraction = true) :
    scanSegment hc frac st =
      some ⟨st.seen_digit || !frac.isEmpty, true, st.segment_seconds,
            (fracFold st.segment_ms st.fraction_digits frac).1,
            (fracFold st.segment_ms st.fraction_digits frac).2⟩ := by
  induction frac generalizing st with
  | nil =>
    cases st
    simp_all [scanSegment, fracFold]
  | cons c rest ih =>
    have hf := digit_char_facts c (hdig c (List.mem_cons_self c rest))
    have hnm : ¬(c = '.' ∨ c = ',') := by
      rintro (hc' | hc')
      · exact hf.2.2.2.1 hc'
      · exact hf.2.2.2.2.1 hc'
    rw [scanSegment, if_neg hnm, if_neg hf.2.2.2.2.2.2]
    rw [if_neg (by simp [hsf])]
    by_cases hfd : st.fraction_digits < 3
    · rw [if_pos hfd]
      rw [ih _ (fun c' hc' => hdig c' (List.mem_cons_of_mem c hc')) (by simp [hsf])]
      simp only [fracFold, if_pos hfd]
      simp [hsf]
    · rw [if_neg hfd]
      rw [ih _ (fun c' hc' => hdig c' (List.mem_cons_of_mem c hc')) (by simp [hsf])]
      simp only [fracFold, if_neg hfd]
      simp [hsf]

/-- The segment scanner distributes over appending. -/
theorem scanSegment_append (hc : Bool) (a b : List Char) (st : SegScan) :
    scanSegment hc (a ++ b) st =
      match scanSegment hc a st with
      | none => none
      | some st' => scanSegment hc b st' := by
  induction a generalizing st with
  | nil => simp [scanSegment]
  | cons c a ih =>
    simp only [List.cons_append, scanSegment]
    split
    · split
      · rfl
      · exact ih _
    · split
      · rfl
      · split
        · exact ih _
        · split
          · exact ih _
          · exact ih _

/-- The first fraction marker of the last segment switches the scanner into
fraction mode. -/
theorem scanSegment_marker (frac : List Char) (st : SegScan)
    (hsf : st.seen_fraction = false) :
    scanSegment false ('.' :: frac) st =
      scanSegment false frac { st with seen_fraction := true } := by
  rw [scanSegment, if_pos (Or.inl rfl), if_neg (by simp [hsf])]

/-- Closed form of the fraction accumulation: at most the first three digits
are taken. -/
theorem fracFold_spec (cs : List Char) (ms fd : Nat) (h : fd ≤ 3) :
    fracFold ms fd cs =
      (foldDigits64 ms (cs.take (3 - fd)), fd + min cs.length (3 - fd)) := by
  induction cs generalizing ms fd with
  | nil => simp [fracFold, foldDigits64]
  | cons c cs ih =>
    by_cases hfd : fd < 3
    · rw [fracFold, if_pos hfd, ih _ _ (by omega)]
      have h31 : 3 - fd = (2 - fd) + 1 := by omega
      have h32 : 3 - (fd + 1) = 2 - fd := by omega
      rw [Prod.mk.injEq]
      constructor
      · rw [h31, h32, List.take_succ_cons]
        rfl
      · simp only [List.length_cons, h32]
        omega
    · have h3 : fd = 3 := by omega
      subst h3
      rw [fracFold, if_neg hfd, ih _ _ (by omega)]
      simp [foldDigits64]

/-- Pure digit accumulation is monotone in its accumulator. -/
theorem pureDigits_le (init : Nat) (cs : List Char) :
    init ≤ cs.foldl (fun a c => a * 10 + digitVal c) init := by
  induction cs generalizing init with
  | nil => exact Nat.le_refl init
  | cons c cs ih =>
    rw [List.foldl_cons]
    exact Nat.le_trans (by omega) (ih (init * 10 + digitVal c))

/-- When the pure value fits in `uint64_t`, the wrapped accumulation agrees
with the pure one. -/
theorem foldDigits64_eq_pure (init : Nat) (cs : List Char)
    (h : cs.foldl (fun a c => a * 10 + digitVal c) init < 2 ^ 64) :
    foldDigits64 init cs = cs.foldl (fun a c => a * 10 + digitVal c) init := by
  induction cs generalizing init with
  | nil => rfl
  | cons c cs ih =>
    rw [List.foldl_cons] at h ⊢
    have e1 : foldDigits64 init (c :: cs) =
        foldDigits64 ((init * 10 + digitVal c) % 2 ^ 64) cs := rfl
    have hstep : init * 10 + digitVal c < 2 ^ 64 :=
      Nat.lt_of_le_of_lt (pureDigits_le _ cs) h
    rw [e1, Nat.mod_eq_of_lt hstep]
    exact ih _ h

/-- Size bound for the pure digit value. -/
theorem pureDigits_lt (init : Nat) (cs : List Char)
    (h : ∀ c ∈ cs, IsAsciiDigit c = true) :
    cs.foldl (fun a c => a * 10 + digitVal c) init < (init + 1) * 10 ^ cs.length := by
  induction cs generalizing init with
  | nil => simp
  | cons c cs ih =>
    rw [List.foldl_cons]
    have hd : digitVal c ≤ 9 := by
      have hc := h c (List.mem_cons_self c cs)
      simp only [IsAsciiDigit, Bool.and_eq_true, decide_eq_true_eq] at hc
      unfold digitVal
      omega
    calc cs.foldl (fun a c => a * 10 + digitVal c) (init * 10 + digitVal c)
        < (init * 10 + digitVal c + 1) * 10 ^ cs.length :=
          ih _ (fun c' hc' => h c' (List.mem_cons_of_mem c hc'))
      _ ≤ ((init + 1) * 10) * 10 ^ cs.length :=
          Nat.mul_le_mul_right _ (by omega)
      _ = (init + 1) * 10 ^ (c :: cs).length := by
          rw [List.length_cons, pow_succ]
          ring

/-- The base-60 fold is monotone in its accumulator. -/
theorem base60Fold_le (t : Nat) (vals : List Nat) : t ≤ base60Fold t vals := by
  induction vals generalizing t with
  | nil => exact Nat.le_refl t
  | cons v vs ih =>
    exact Nat.le_trans (by omega) (ih (t * 60 + v))

/-- The padding loop multiplies by the missing powers of ten. -/
theorem padMsLoop_eq (ms k : Nat) (h : ms * 10 ^ k < 2 ^ 64) :
    padMsLoop ms k = ms * 10 ^ k := by
  induction k generalizing ms with
  | zero => simp [padMsLoop]
  | succ k ih =>
    have e : ms * 10 ^ (k + 1) = ms * 10 * 10 ^ k := by ring
    rw [e] at h
    have hs : ms * 10 < 2 ^ 64 :=
      Nat.lt_of_le_of_lt (Nat.le_mul_of_pos_right _ (pow_pos (by norm_num) k)) h
    rw [padMsLoop, Nat.mod_eq_of_lt hs, ih _ h, e]

/-- The fraction contribution is below one second. -/
theorem msOfFrac_le (frac : List Char)
    (h : ∀ c ∈ frac, IsAsciiDigit c = true) : msOfFrac frac ≤ 999 := by
  unfold msOfFrac natOfDigits
  have hv : (frac.take 3).foldl (fun a c => a * 10 + digitVal c) 0 <
      10 ^ (min frac.length 3) := by
    have h1 := pureDigits_lt 0 (frac.take 3)
      (fun c hc => h c (List.mem_of_mem_take hc))
    rw [List.length_take, Nat.min_comm] at h1
    simpa using h1
  have hm : min frac.length 3 ≤ 3 := Nat.min_le_right _ _
  have he : min frac.length 3 + (3 - min frac.length 3) = 3 := by omega
  have hp : (10 : Nat) ^ (min frac.length 3) * 10 ^ (3 - min frac.length 3) = 1000 := by
    rw [← pow_add, he]
    norm_num
  have h1P : 1 ≤ (10 : Nat) ^ (3 - min frac.length 3) :=
    Nat.one_le_pow _ _ (by norm_num)
  have hmul : (frac.take 3).foldl (fun a c => a * 10 + digitVal c) 0 *
        10 ^ (3 - min frac.length 3) ≤
      (10 ^ (min frac.length 3) - 1) * 10 ^ (3 - min frac.length 3) :=
    Nat.mul_le_mul_right _ (by omega)
  rw [Nat.sub_mul, hp] at hmul
  omega

/-- The segment loop on non-empty all-digit segments computes the base-60
fold of the segment values, in milliseconds, clamped to `UINT32_MAX` —
provided the millisecond total fits in `uint64_t`. -/
theorem psfSegLoop_good (segs : List (List Char)) (t : Nat)
    (hne : segs ≠ [])
    (hgood : ∀ sg ∈ segs, sg ≠ [] ∧ ∀ c ∈ sg, IsAsciiDigit c = true)
    (hnw : base60Fold t (segs.map natOfDigits) * 1000 + 999 < 2 ^ 64) :
    psfSegLoop t segs = clamp32 (base60Fold t (segs.map natOfDigits) * 1000) := by
  induction segs generalizing t with
  | nil => exact absurd rfl hne
  | cons seg rest ih =>
    obtain ⟨hseg, hdig⟩ := hgood seg (List.mem_cons_self seg rest)
    have hB : base60Fold t ((seg :: rest).map natOfDigits) =
        base60Fold (t * 60 + natOfDigits seg) (rest.map natOfDigits) := rfl
    have hle : t * 60 + natOfDigits seg ≤
        base60Fold t ((seg :: rest).map natOfDigits) := by
      rw [hB]
      exact base60Fold_le _ _
    have hlt : t * 60 + natOfDigits seg < 2 ^ 64 := by omega
    have hvlt : natOfDigits seg < 2 ^ 64 := by omega
    have hscan := scanSegment_digits (!rest.isEmpty) seg ⟨false, false, 0, 0, 0⟩ hdig rfl
    have hsd : (false || !seg.isEmpty) = true := by
      cases seg
      · exact absurd rfl hseg
      · rfl
    have hfd : foldDigits64 0 seg = natOfDigits seg :=
      foldDigits64_eq_pure 0 seg hvlt
    rw [psfSegLoop, hscan]
    simp only [hsd, hfd, Bool.not_true, Bool.false_eq_true, if_false]
    have hpad : padMsLoop 0 (3 - 0) = 0 := rfl
    rw [hpad, Nat.mod_eq_of_lt hlt]
    cases rest with
    | nil =>
      have hball : base60Fold t ((seg :: []).map natOfDigits) =
          t * 60 + natOfDigits seg := rfl
      rw [hball] at hnw ⊢
      rw [Nat.add_zero, Nat.mod_eq_of_lt (by omega)]
    | cons r rs =>
      rw [hB] at hnw ⊢
      exact ih _ (by simp) (fun sg' h' => hgood sg' (List.mem_cons_of_mem _ h')) hnw

/-- A segment containing a character that is neither a digit nor a fraction
marker makes the scanner fail (`return 0`). -/
theorem scanSegment_badchar (hc : Bool) (sg : List Char) (st : SegScan)
    (h : ∃ c ∈ sg, IsAsciiDigit c = false ∧ c ≠ '.' ∧ c ≠ ',') :
    scanSegment hc sg st = none := by
  induction sg generalizing st with
  | nil => simp at h
  | cons c rest ih =>
    obtain ⟨c0, hc0mem, hbad⟩ := h
    rw [scanSegment]
    by_cases hm : c = '.' ∨ c = ','
    · have hc0rest : c0 ∈ rest := by
        rcases List.mem_cons.mp hc0mem with he | hr
        · subst he
          rcases hm with h' | h'
          · exact absurd h' hbad.2.1
          · exact absurd h' hbad.2.2
        · exact hr
      rw [if_pos hm]
      split
      · rfl
      · exact ih _ ⟨c0, hc0rest, hbad⟩
    · rw [if_neg hm]
      by_cases hd : c.toNat < 48 ∨ 57 < c.toNat
      · rw [if_pos hd]
      · have hc0rest : c0 ∈ rest := by
          rcases List.mem_cons.mp hc0mem with he | hr
          · subst he
            have hcd : IsAsciiDigit c0 = true := by
              simp only [IsAsciiDigit, Bool.and_eq_true, decide_eq_true_eq]
              omega
            rw [hcd] at hbad
            exact absurd hbad.1 (by simp)
          · exact hr
        rw [if_neg hd]
        split
        · exact ih _ ⟨c0, hc0rest, hbad⟩
        · split
          · exact ih _ ⟨c0, hc0rest, hbad⟩
          · exact ih _ ⟨c0, hc0rest, hbad⟩

/-- A fraction marker anywhere in a non-last segment (`hasColon` true) makes
the scanner fail. -/
theorem scanSegment_marker_hasColon (sg : List Char) (st : SegScan)
    (h : ∃ c ∈ sg, c = '.' ∨ c = ',') :
    scanSegment true sg st = none := by
  induction sg generalizing st with
  | nil => simp at h
  | cons c rest ih =>
    rw [scanSegment]
    by_cases hm : c = '.' ∨ c = ','
    · rw [if_pos hm, if_pos (Or.inr rfl)]
    · obtain ⟨c0, hc0mem, hc0⟩ := h
      have hc0rest : c0 ∈ rest := by
        rcases List.mem_cons.mp hc0mem with he | hr
        · subst he
          exact absurd hc0 hm
        · exact hr
      rw [if_neg hm]
      by_cases hd : c.toNat < 48 ∨ 57 < c.toNat
      · rw [if_pos hd]
      · rw [if_neg hd]
        split
        · exact ih _ ⟨c0, hc0rest, hc0⟩
        · split
          · exact ih _ ⟨c0, hc0rest, hc0⟩
          · exact ih _ ⟨c0, hc0rest, hc0⟩

/-- Any segment list containing a character that is neither a digit, a colon
separator nor a fraction marker makes the loop return 0. -/
theorem psfSegLoop_badchar (segs : List (List Char)) (t : Nat)
    (h : ∃ sg ∈ segs, ∃ c ∈ sg, IsAsciiDigit c = false ∧ c ≠ '.' ∧ c ≠ ',') :
    psfSegLoop t segs = 0 := by
  induction segs generalizing t with
  | nil => simp at h
  | cons seg rest ih =>
    obtain ⟨sg0, hsg0, hbad⟩ := h
    rcases List.mem_cons.mp hsg0 with he | hr
    · subst he
      rw [psfSegLoop, scanSegment_badchar _ _ _ hbad]
    · cases hscan : scanSegment (!rest.isEmpty) seg ⟨false, false, 0, 0, 0⟩ with
      | none => rw [psfSegLoop, hscan]
      | some st =>
        rw [psfSegLoop, hscan]
        by_cases hsd : st.seen_digit = true
        · simp only [hsd, Bool.not_true, Bool.false_eq_true, if_false]
          cases rest with
          | nil => simp at hr
          | cons r rs => exact ih _ ⟨sg0, hr, hbad⟩
        · simp only [Bool.not_eq_true] at hsd
          simp [hsd]

/-- An empty segment (leading, trailing or doubled colon) makes the loop
return 0. -/
theorem psfSegLoop_emptyseg (segs : List (List Char)) (t : Nat)
    (h : [] ∈ segs) : psfSegLoop t segs = 0 := by
  induction segs generalizing t with
  | nil => simp at h
  | cons seg rest ih =>
    rcases List.mem_cons.mp h with he | hr
    · subst he
      rfl
    · cases hscan : scanSegment (!rest.isEmpty) seg ⟨false, false, 0, 0, 0⟩ with
      | none => rw [psfSegLoop, hscan]
      | some st =>
        rw [psfSegLoop, hscan]
        by_cases hsd : st.seen_digit = true
        · simp only [hsd, Bool.not_true, Bool.false_eq_true, if_false]
          cases rest with
          | nil => simp at hr
          | cons r rs => exact ih _ hr
        · simp only [Bool.not_eq_true] at hsd
          simp [hsd]

/-- A fraction marker in any non-last segment makes the loop return 0. -/
theorem psfSegLoop_marker_nonlast (segs : List (List Char)) (t : Nat)
    (h : ∃ sg ∈ segs.dropLast, '.' ∈ sg ∨ ',' ∈ sg) :
    psfSegLoop t segs = 0 := by
  induction segs generalizing t with
  | nil => simp at h
  | cons seg rest ih =>
    cases rest with
    | nil => simp at h
    | cons r rs =>
      obtain ⟨sg0, hsg0, hmk⟩ := h
      rw [List.dropLast_cons₂] at hsg0
      rcases List.mem_cons.mp hsg0 with he | hr
      · subst he
        have hmk' : ∃ c ∈ sg0, c = '.' ∨ c = ',' := by
          rcases hmk with h' | h'
          · exact ⟨'.', h', Or.inl rfl⟩
          · exact ⟨',', h', Or.inr rfl⟩
        have hcol : (!(r :: rs).isEmpty) = true := rfl
        rw [psfSegLoop, hcol, scanSegment_marker_hasColon _ _ hmk']
      · cases hscan : scanSegment (!(r :: rs).isEmpty) seg ⟨false, false, 0, 0, 0⟩ with
        | none => rw [psfSegLoop, hscan]
        | some st =>
          rw [psfSegLoop, hscan]
          by_cases hsd : st.seen_digit = true
          · simp only [hsd, Bool.not_true, Bool.false_eq_true, if_false]
            exact ih _ ⟨sg0, hr, hmk⟩
          · simp only [Bool.not_eq_true] at hsd
            simp [hsd]

/-- The clamp never exceeds `UINT32_MAX`. -/
theorem clamp32_le (x : Nat) : clamp32 x ≤ 2 ^ 32 - 1 := by
  unfold clamp32
  split <;> omega

/-- The segment loop never exceeds `UINT32_MAX`. -/
theorem psfSegLoop_le (t : Nat) (segs : List (List Char)) :
    psfSegLoop t segs ≤ 2 ^ 32 - 1 := by
  induction segs generalizing t with
  | nil => simp [psfSegLoop]
  | cons seg rest ih =>
    cases hscan : scanSegment (!rest.isEmpty) seg ⟨false, false, 0, 0, 0⟩ with
    | none =>
      rw [psfSegLoop, hscan]
      exact Nat.zero_le _
    | some st =>
      rw [psfSegLoop, hscan]
      by_cases hsd : st.seen_digit = true
      · simp only [hsd, Bool.not_true, Bool.false_eq_true, if_false]
        cases rest with
        | nil => exact clamp32_le _
        | cons r rs => exact ih _
      · simp only [Bool.not_eq_true] at hsd
        simp [hsd]

/-- The integer branch never exceeds `UINT32_MAX`. -/
theorem parsePsfIntBranch_le (cs : List Char) :
    ParsePsfIntBranch cs ≤ 2 ^ 32 - 1 := by
  unfold ParsePsfIntBranch
  dsimp only
  repeat' split
  all_goals first
    | omega
    | exact clamp32_le _

/-- The segment loop when the last segment carries a fraction part: the
base-60 seconds plus the (up to three digit, zero-padded) milliseconds,
clamped. -/
theorem psfSegLoop_frac (pre : List (List Char)) (last frac : List Char) (t : Nat)
    (hpre : ∀ sg ∈ pre, sg ≠ [] ∧ ∀ c ∈ sg, IsAsciiDigit c = true)
    (hlast : last ≠ []) (hlastd : ∀ c ∈ last, IsAsciiDigit c = true)
    (hfrac : ∀ c ∈ frac, IsAsciiDigit c = true)
    (hnw : base60Fold t ((pre ++ [last]).map natOfDigits) * 1000 + 999 < 2 ^ 64) :
    psfSegLoop t (pre ++ [last ++ '.' :: frac]) =
      clamp32 (base60Fold t ((pre ++ [last]).map natOfDigits) * 1000 + msOfFrac frac) := by
  induction pre generalizing t with
  | nil =>
    have hvlast : natOfDigits last < 2 ^ 64 := by
      have h1 : base60Fold t (([] ++ [last]).map natOfDigits) = t * 60 + natOfDigits last := rfl
      rw [h1] at hnw
      omega
    have hfd : foldDigits64 0 last = natOfDigits last := foldDigits64_eq_pure 0 last hvlast
    have hvfrac : natOfDigits (frac.take 3) < 1000 := by
      have h1 := pureDigits_lt 0 (frac.take 3) (fun c hc => hfrac c (List.mem_of_mem_take hc))
      have h2 : (10 : Nat) ^ (frac.take 3).length ≤ 1000 := by
        calc (10 : Nat) ^ (frac.take 3).length ≤ 10 ^ 3 := by
              apply Nat.pow_le_pow_right (by norm_num)
              rw [List.length_take]
              omega
          _ = 1000 := by norm_num
      unfold natOfDigits
      omega
    have hffrac : foldDigits64 0 (frac.take 3) = natOfDigits (frac.take 3) :=
      foldDigits64_eq_pure 0 (frac.take 3) (by unfold natOfDigits at hvfrac; omega)
    have hscan : scanSegment false (last ++ '.' :: frac) ⟨false, false, 0, 0, 0⟩ =
        some ⟨(false || !last.isEmpty) || !frac.isEmpty, true, foldDigits64 0 last,
              (fracFold 0 0 frac).1, (fracFold 0 0 frac).2⟩ := by
      rw [scanSegment_append, scanSegment_digits false last ⟨false, false, 0, 0, 0⟩ hlastd rfl]
      show scanSegment false ('.' :: frac)
        ⟨false || !last.isEmpty, false, foldDigits64 0 last, 0, 0⟩ = _
      rw [scanSegment_marker _ _ rfl]
      show scanSegment false frac
        ⟨false || !last.isEmpty, true, foldDigits64 0 last, 0, 0⟩ = _
      rw [scanSegment_frac_digits false frac _ hfrac rfl]
    have hff : fracFold 0 0 frac = (natOfDigits (frac.take 3), min frac.length 3) := by
      rw [fracFold_spec frac 0 0 (by omega), hffrac]
      simp
    have hsd : ((false || !last.isEmpty) || !frac.isEmpty) = true := by
      cases last
      · exact absurd rfl hlast
      · simp
    have hpadlt : natOfDigits (frac.take 3) * 10 ^ (3 - min frac.length 3) < 2 ^ 64 := by
      have := msOfFrac_le frac hfrac
      unfold msOfFrac at this
      omega
    have hmsle : msOfFrac frac ≤ 999 := msOfFrac_le frac hfrac
    rw [List.nil_append, psfSegLoop]
    have hre : (!(([] : List (List Char))).isEmpty) = false := rfl
    rw [hre, hscan]
    simp only [hsd, Bool.not_true, Bool.false_eq_true, if_false, hff, hfd]
    rw [padMsLoop_eq _ _ hpadlt]
    have hBe : t * 60 + natOfDigits last = base60Fold t (([] ++ [last]).map natOfDigits) := rfl
    have hmm : msOfFrac frac = natOfDigits (frac.take 3) * 10 ^ (3 - min frac.length 3) := rfl
    rw [hBe, ← hmm]
    rw [Nat.mod_eq_of_lt (by omega), Nat.mod_eq_of_lt (by omega)]
  | cons seg pres ih =>
    obtain ⟨hseg, hdig⟩ := hpre seg (List.mem_cons_self seg pres)
    have hB : base60Fold t (((seg :: pres) ++ [last]).map natOfDigits) =
        base60Fold (t * 60 + natOfDigits seg) ((pres ++ [last]).map natOfDigits) := rfl
    have hle : t * 60 + natOfDigits seg ≤
        base60Fold t (((seg :: pres) ++ [last]).map natOfDigits) := by
      rw [hB]
      exact base60Fold_le _ _
    have hlt : t * 60 + natOfDigits seg < 2 ^ 64 := by omega
    have hvlt : natOfDigits seg < 2 ^ 64 := by omega
    have hrest_ne : pres ++ [last ++ '.' :: frac] ≠ [] := by
      cases pres <;> simp
    have hscan := scanSegment_digits (!(pres ++ [last ++ '.' :: frac]).isEmpty) seg
      ⟨false, false, 0, 0, 0⟩ hdig rfl
    have hsd : (false || !seg.isEmpty) = true := by
      cases seg
      · exact absurd rfl hseg
      · rfl
    have hfdseg : foldDigits64 0 seg = natOfDigits seg :=
      foldDigits64_eq_pure 0 seg hvlt
    rw [List.cons_append, psfSegLoop, hscan]
    simp only [hsd, hfdseg, Bool.not_true, Bool.false_eq_true, if_false]
    have hpad : padMsLoop 0 (3 - 0) = 0 := rfl
    rw [hpad, Nat.mod_eq_of_lt hlt]
    cases hps : pres ++ [last ++ '.' :: frac] with
    | nil => exact absurd hps hrest_ne
    | cons r rs =>
      simp only [hps]
      rw [← hps]
      rw [hB] at hnw ⊢
      exact ih _ (fun sg' h' => hpre sg' (List.mem_cons_of_mem _ h')) hnw

/-- `List.intercalate` unfolded once over a two-or-more element list. -/
theorem intercalate_colon_cons (a b : List Char) (tl : List (List Char)) :
    List.intercalate [':'] (a :: b :: tl) = a ++ ':' :: List.intercalate [':'] (b :: tl) := by
  simp [List.intercalate, List.intersperse_cons_cons]

/-- The separator occurs in any intercalation of two or more segments. -/
theorem colon_mem_intercalate (a b : List Char) (tl : List (List Char)) :
    ':' ∈ List.intercalate [':'] (a :: b :: tl) := by
  rw [intercalate_colon_cons]
  exact List.mem_append_right _ (List.mem_cons_self _ _)

/-- Characters of any segment occur in the intercalation. -/
theorem mem_intercalate_of_mem (c : Char) (sg : List Char) (segs : List (List Char))
    (hsg : sg ∈ segs) (hc : c ∈ sg) : c ∈ List.intercalate [':'] segs := by
  induction segs with
  | nil => simp at hsg
  | cons a tl ih =>
    cases tl with
    | nil =>
      rcases List.mem_cons.mp hsg with he | h0
      · subst he
        simpa [List.intercalate] using hc
      · simp at h0
    | cons b ts =>
      rw [intercalate_colon_cons]
      rcases List.mem_cons.mp hsg with he | h0
      · subst he
        exact List.mem_append_left _ hc
      · exact List.mem_append_right _ (List.mem_cons_of_mem _ (ih h0))

/-- Top-level reduction of `ParsePsfTimeMS` into the colon-segment loop. -/
theorem parsePsf_colon_branch (cs : List Char) (hne : cs ≠ [])
    (hcolon : ':' ∈ cs ∨ '.' ∈ cs ∨ ',' ∈ cs) :
    ParsePsfTimeMS (some (String.mk cs)) = psfSegLoop 0 (cs.splitOn ':') := by
  rw [ParsePsfTimeMS]
  have h1 : (String.mk cs).data = cs := rfl
  rw [h1]
  rw [if_neg (by cases cs with
    | nil => exact absurd rfl hne
    | cons c l => simp)]
  rw [if_neg (by
    rintro ⟨hc1, hc2, hc3⟩
    rcases hcolon with h | h | h
    · exact hc1 h
    · exact hc2 h
    · exact hc3 h)]

/-- Reduction of `ParsePsfTimeMS` on a non-empty all-digit string: the
`strtoul` branch with the seconds-vs-milliseconds heuristic. -/
theorem parsePsf_digits (cs : List Char) (hne : cs ≠ [])
    (hdig : ∀ c ∈ cs, IsAsciiDigit c = true) :
    ParsePsfTimeMS (some (String.mk cs)) =
      if 10000 ≤ natOfDigits cs then clamp32 (natOfDigits cs)
      else natOfDigits cs * 1000 := by
  obtain ⟨c, cs', rfl⟩ : ∃ c cs', cs = c :: cs' := by
    cases cs
    · exact absurd rfl hne
    · exact ⟨_, _, rfl⟩
  have hfr := digit_char_facts c (hdig c (List.mem_cons_self _ _))
  have hnospec : ':' ∉ (c :: cs') ∧ '.' ∉ (c :: cs') ∧ ',' ∉ (c :: cs') := by
    refine ⟨?_, ?_, ?_⟩ <;> intro hmem
    · exact (digit_char_facts _ (hdig _ hmem)).2.2.1 rfl
    · exact (digit_char_facts _ (hdig _ hmem)).2.2.2.1 rfl
    · exact (digit_char_facts _ (hdig _ hmem)).2.2.2.2.1 rfl
  rw [ParsePsfTimeMS]
  have h1 : (String.mk (c :: cs')).data = c :: cs' := rfl
  rw [h1, if_neg (by simp), if_pos hnospec]
  have hws : List.dropWhile IsWhitespaceFast (c :: cs') = c :: cs' := by
    rw [List.dropWhile_cons, if_neg (by simp [hfr.2.2.2.2.2.1])]
  have hhead : (c :: cs').head? = some c := rfl
  have hsign : ¬((c :: cs').head? = some '-' ∨ (c :: cs').head? = some '+') := by
    rw [hhead]
    rintro (h | h)
    · exact hfr.1 (Option.some.inj h)
    · exact hfr.2.1 (Option.some.inj h)
  have hneg : decide ((c :: cs').head? = some '-') = false := by
    rw [decide_eq_false_iff_not, hhead]
    intro h
    exact hfr.1 (Option.some.inj h)
  have htw : List.takeWhile IsAsciiDigit (c :: cs') = c :: cs' :=
    List.takeWhile_eq_self_iff.mpr hdig
  have hdw : List.dropWhile IsAsciiDigit (c :: cs') = [] :=
    List.dropWhile_eq_nil_iff.mpr hdig
  unfold ParsePsfIntBranch
  rw [hws]
  dsimp only
  rw [if_neg hsign, htw, hdw]
  rw [if_neg (by simp), if_neg (by simp)]
  rw [hneg]
  simp only [Bool.false_eq_true, if_false]
  by_cases hov : natOfDigits (c :: cs') > 2 ^ 64 - 1
  · rw [if_pos hov, if_pos (by norm_num), if_pos (by omega)]
    unfold clamp32
    rw [if_pos (by norm_num), if_pos (by omega)]
  · rw [if_neg hov]
    by_cases h10 : natOfDigits (c :: cs') ≥ 10000
    · rw [if_pos h10, if_pos (by omega)]
    · rw [if_neg h10, if_neg (by omega)]
      unfold clamp32
      rw [if_neg (by omega)]

/-- `ParsePsfTimeMS` never exceeds `UINT32_MAX`, on any input. -/
theorem parsePsf_le (o : Option String) : ParsePsfTimeMS o ≤ 2 ^ 32 - 1 := by
  cases o with
  | none => exact Nat.zero_le _
  | some s =>
    rw [ParsePsfTimeMS]
    split
    · exact Nat.zero_le _
    · split
      · exact parsePsfIntBranch_le _
      · exact psfSegLoop_le _ _

/-! ## Claim C10: the `ParsePsfTimeMS` time-stamp grammar -/

/-- C10: behavior of `ParsePsfTimeMS` (identical in the Upse, Aopsf and
Lazygsf plugins).  (1) A non-empty digit-only string below 10000 is seconds
and returns `value * 1000`; at 10000 or above it is milliseconds returned
unchanged (clamped).  (2) Colon-separated non-empty digit segments fold
base-60 into seconds, times 1000, clamped.  (3) Up to three
fractional-millisecond digits after a `'.'` are allowed in the last segment
(extra digits ignored, missing digits zero-padded).  (4) Malformed
colon-separated input — a character that is not a digit, separator or
fraction marker; an empty segment; or a fraction marker in a non-last
segment — returns 0.  (5) Every result is clamped to `UINT32_MAX`, and a
null or empty tag value yields 0. -/
theorem parsePsfTimeMS_spec :
    (∀ s : String, s.data ≠ [] → (∀ c ∈ s.data, IsAsciiDigit c = true) →
      ParsePsfTimeMS (some s) =
        if 10000 ≤ natOfDigits s.data then clamp32 (natOfDigits s.data)
        else natOfDigits s.data * 1000) ∧
    (∀ segs : List (List Char), 2 ≤ segs.length →
      (∀ sg ∈ segs, sg ≠ [] ∧ ∀ c ∈ sg, IsAsciiDigit c = true) →
      base60Fold 0 (segs.map natOfDigits) * 1000 + 999 < 2 ^ 64 →
      ParsePsfTimeMS (some (String.mk (List.intercalate [':'] segs))) =
        clamp32 (base60Fold 0 (segs.map natOfDigits) * 1000)) ∧
    (∀ (pre : List (List Char)) (last frac : List Char),
      (∀ sg ∈ pre, sg ≠ [] ∧ ∀ c ∈ sg, IsAsciiDigit c = true) →
      last ≠ [] → (∀ c ∈ last, IsAsciiDigit c = true) →
      (∀ c ∈ frac, IsAsciiDigit c = true) →
      base60Fold 0 ((pre ++ [last]).map natOfDigits) * 1000 + 999 < 2 ^ 64 →
      ParsePsfTimeMS (some (String.mk
          (List.intercalate [':'] (pre ++ [last ++ '.' :: frac])))) =
        clamp32 (base60Fold 0 ((pre ++ [last]).map natOfDigits) * 1000 +
          msOfFrac frac)) ∧
    (∀ segs : List (List Char), 2 ≤ segs.length → (∀ sg ∈ segs, ':' ∉ sg) →
      ((∃ sg ∈ segs, ∃ c ∈ sg, IsAsciiDigit c = false ∧ c ≠ '.' ∧ c ≠ ',') ∨
       [] ∈ segs ∨
       (∃ sg ∈ segs.dropLast, '.' ∈ sg ∨ ',' ∈ sg)) →
      ParsePsfTimeMS (some (String.mk (List.intercalate [':'] segs))) = 0) ∧
    (∀ o : Option String, ParsePsfTimeMS o ≤ 2 ^ 32 - 1) ∧
    ParsePsfTimeMS none = 0 ∧ ParsePsfTimeMS (some "") = 0 := by
  have hnocolon : ∀ (segs : List (List Char)),
      (∀ sg ∈ segs, sg ≠ [] ∧ ∀ c ∈ sg, IsAsciiDigit c = true) →
      ∀ sg ∈ segs, ':' ∉ sg := by
    intro segs hgood sg hsg hmem
    exact (digit_char_facts ':' ((hgood sg hsg).2 ':' hmem)).2.2.1 rfl
  refine ⟨?_, ?_, ?_, ?_, parsePsf_le, rfl, rfl⟩
  · intro s hne hdig
    have hs : s = String.mk s.data := rfl
    rw [hs]
    exact parsePsf_digits s.data hne hdig
  · intro segs hlen hgood hnw
    obtain ⟨a, b, tl, rfl⟩ : ∃ a b tl, segs = a :: b :: tl := by
      match segs with
      | a :: b :: tl => exact ⟨a, b, tl, rfl⟩
    have hmem := colon_mem_intercalate a b tl
    rw [parsePsf_colon_branch _ (List.ne_nil_of_mem hmem) (Or.inl hmem)]
    rw [List.splitOn_intercalate _ ':' (hnocolon _ hgood) (by simp)]
    exact psfSegLoop_good _ 0 (by simp) hgood hnw
  · intro pre last frac hpre hlast hlastd hfrac hnw
    have hsegne : pre ++ [last ++ '.' :: frac] ≠ [] := by
      cases pre <;> simp
    have hdotmem : '.' ∈ List.intercalate [':'] (pre ++ [last ++ '.' :: frac]) := by
      apply mem_intercalate_of_mem '.' (last ++ '.' :: frac)
      · exact List.mem_append_right pre (by simp)
      · exact List.mem_append_right last (List.mem_cons_self _ _)
    rw [parsePsf_colon_branch _ (List.ne_nil_of_mem hdotmem) (Or.inr (Or.inl hdotmem))]
    rw [List.splitOn_intercalate _ ':' ?hnc hsegne]
    case hnc =>
      intro sg hsg hmem
      rcases List.mem_append.mp hsg with h | h
      · exact (digit_char_facts ':' ((hpre sg h).2 ':' hmem)).2.2.1 rfl
      · rw [List.mem_singleton] at h
        subst h
        rcases List.mem_append.mp hmem with h' | h'
        · exact (digit_char_facts ':' (hlastd ':' h')).2.2.1 rfl
        · rcases List.mem_cons.mp h' with h'' | h''
          · exact absurd h''.symm (by decide)
          · exact (digit_char_facts ':' (hfrac ':' h'')).2.2.1 rfl
    exact psfSegLoop_frac pre last frac 0 hpre hlast hlastd hfrac hnw
  · intro segs hlen hnc hbad
    obtain ⟨a, b, tl, rfl⟩ : ∃ a b tl, segs = a :: b :: tl := by
      match segs with
      | a :: b :: tl => exact ⟨a, b, tl, rfl⟩
    have hmem := colon_mem_intercalate a b tl
    rw [parsePsf_colon_branch _ (List.ne_nil_of_mem hmem) (Or.inl hmem)]
    rw [List.splitOn_intercalate _ ':' hnc (by simp)]
    rcases hbad with h | h | h
    · exact psfSegLoop_badchar _ 0 h
    · exact psfSegLoop_emptyseg _ 0 h
    · exact psfSegLoop_marker_nonlast _ 0 h

/-- Witness for C10 at concrete inputs: `"90"` (seconds heuristic),
`"10000"` (milliseconds heuristic), `"1:30"`, `"2:03.5"`, and the malformed
inputs `"1:x"`, `"1:"` and `"1.2:3"`. -/
theorem parsePsfTimeMS_spec_witness :
    ParsePsfTimeMS (some "90") = 90000 ∧
    ParsePsfTimeMS (some "10000") = 10000 ∧
    ParsePsfTimeMS (some (String.mk (List.intercalate [':'] [['1'], ['3', '0']]))) =
      90000 ∧
    ParsePsfTimeMS (some (String.mk
      (List.intercalate [':'] ([['2']] ++ [['0', '3'] ++ '.' :: ['5']])))) = 123500 ∧
    ParsePsfTimeMS (some (String.mk (List.intercalate [':'] [['1'], ['x']]))) = 0 ∧
    ParsePsfTimeMS (some (String.mk (List.intercalate [':'] [['1'], []]))) = 0 ∧
    ParsePsfTimeMS (some (String.mk (List.intercalate [':'] [['1', '.', '2'], ['3']]))) =
      0 := by
  obtain ⟨ha, hb1, hb2, hc, _, _, _⟩ := parsePsfTimeMS_spec
  refine ⟨?_, ?_, ?_, ?_, ?_, ?_, ?_⟩
  · exact (ha "90" (by decide) (by decide)).trans (by decide)
  · exact (ha "10000" (by decide) (by decide)).trans (by decide)
  · exact (hb1 [['1'], ['3', '0']] (by decide) (by decide) (by decide)).trans (by decide)
  · exact (hb2 [['2']] ['0', '3'] ['5'] (by decide) (by decide) (by decide)
      (by decide) (by decide)).trans (by decide)
  · exact hc [['1'], ['x']] (by decide) (by decide)
      (Or.inl ⟨['x'], by decide, 'x', by decide, by decide, by decide, by decide⟩)
  · exact hc [['1'], []] (by decide) (by decide) (Or.inr (Or.inl (by decide)))
  · exact hc [['1', '.', '2'], ['3']] (by decide) (by decide)
      (Or.inr (Or.inr ⟨['1', '.', '2'], by decide, Or.inl (by decide)⟩))

end VGMPD
